import Mathlib

set_option maxHeartbeats 1000000

/-!
Shallow embedding of the notes-editor repository core (`src/remote.py`),
a stateless git-backed file CRUD layer built on pygit2, together with the
keyword-argument surface of the backend serving layer
(`src/backend/endpoints.py`).

Git objects are modelled as values: a blob is its decoded UTF-8 content plus
its filemode, a tree is its list of entries.  Content addressing means two
structurally equal objects have the same identifier, so "same object id" is
modelled as value equality.  Each `Remote` method that commits is modelled as
a function from a repository state (head commit, predecessor chain, blob
object log) to a new state paired with an `Except` result; a Python
`KeyError`/`IndexError` raise site becomes a distinct error constructor.
-/

/-- git filemode of a directory entry (`pygit2.GIT_FILEMODE_TREE`, octal 40000). -/
def GITMODE_TREE : Nat := 16384

/-- git filemode of a regular file (`pygit2.GIT_FILEMODE_BLOB`, octal 100644). -/
def GITMODE_FILE : Nat := 33188

/-- git filemode of an executable file (octal 100755), used for mode-preservation tests. -/
def GITMODE_EXEC : Nat := 33261

mutual

/-- A git object referenced by a tree entry.  A blob carries the filemode the
entry stores for it (in git the mode lives in the entry; a tree entry's mode is
always `GITMODE_TREE`, so `entry.filemode != GIT_FILEMODE_TREE` in the source
is exactly "the entry references a blob"). -/
inductive GitObj where
  | blob (mode : Nat) (data : String)
  | tree (entries : GitEntries)

/-- The entry list of a git tree: a finite association of names to objects. -/
inductive GitEntries where
  | nil : GitEntries
  | cons (name : String) (obj : GitObj) (rest : GitEntries) : GitEntries

end

/-- Look an entry up by name, as `tree[name]` / `next(e for e in tree if e.name == n)`. -/
def entLookup : GitEntries → String → Option GitObj
  | .nil, _ => none
  | .cons n o rest, name => if n = name then some o else entLookup rest name

/-- `TreeBuilder.insert(name, oid, mode)`: replace the entry of that name, or add it. -/
def entInsert : GitEntries → String → GitObj → GitEntries
  | .nil, name, o => .cons name o .nil
  | .cons n o0 rest, name, o =>
      if n = name then .cons n o rest else .cons n o0 (entInsert rest name o)

/-- `TreeBuilder.remove(name)`: drop the entry of that name. -/
def entRemove : GitEntries → String → GitEntries
  | .nil, _ => .nil
  | .cons n o rest, name => if n = name then rest else .cons n o (entRemove rest name)

/-- `len(tree)`: number of entries. -/
def entLen : GitEntries → Nat
  | .nil => 0
  | .cons _ _ rest => entLen rest + 1

/-- whether an entry of the given name occurs. -/
def hasName : GitEntries → String → Bool
  | .nil, _ => false
  | .cons n _ rest, name => (n = name) || hasName rest name

mutual

/-- Well-formedness of a git object: every tree level has pairwise distinct
entry names (git trees never contain two entries with the same name). -/
def objWf : GitObj → Bool
  | .blob _ _ => true
  | .tree es => entriesWf es

/-- Well-formedness of a tree entry list. -/
def entriesWf : GitEntries → Bool
  | .nil => true
  | .cons n o rest => !hasName rest n && objWf o && entriesWf rest

end

mutual

/-- No reachable subtree entry is an empty directory (the pruning invariant
the delete operation is meant to maintain; the root itself may be empty). -/
def objPruned : GitObj → Bool
  | .blob _ _ => true
  | .tree es => (entLen es != 0) && entriesPruned es

/-- pruning invariant for an entry list. -/
def entriesPruned : GitEntries → Bool
  | .nil => true
  | .cons _ o rest => objPruned o && entriesPruned rest

end

/-- The nested name-to-(null or sub-listing) structure returned by `get_files`. -/
inductive Listing where
  | node (entries : List (String × Option Listing))

mutual

/-- `Remote._tree_to_dict`: map each blob entry to `None` and each tree entry
to its recursive listing, in entry order. -/
def tree_to_dict : GitEntries → List (String × Option Listing)
  | .nil => []
  | .cons n o rest => (n, obj_to_dict o) :: tree_to_dict rest

/-- the per-object half of `Remote._tree_to_dict`. -/
def obj_to_dict : GitObj → Option Listing
  | .blob _ _ => none
  | .tree es => some (.node (tree_to_dict es))

end

/-- One error constructor per raise site in `src/remote.py`.  All of them are
Python `KeyError`s except `indexError`, which models the uncaught
`IndexError` from `path_parts[0]` on an empty list. -/
inductive GitError where
  | emptyPath
  | indexError
  | dirNotFound
  | componentNotADirectory
  | fileNotFound
  | isADirectory
  | pathNotFound
  | alreadyExists
  | srcNotFound
  | srcIsADirectory
  | invalidPath
deriving DecidableEq

/-- The errors the spec taxonomy classifies as `NotFound`. -/
def notFoundErr : GitError → Bool
  | .dirNotFound => true
  | .fileNotFound => true
  | .pathNotFound => true
  | .srcNotFound => true
  | _ => false

/-- An operation result that failed with a `NotFound`-class error. -/
def failsNotFound : Except GitError α → Bool
  | .error e => notFoundErr e
  | .ok _ => false

/-- An operation result that succeeded. -/
def exOk : Except GitError α → Bool
  | .ok _ => true
  | .error _ => false

/-- Python `str.split("/")` on a character list: every separator occurrence
splits, so consecutive, leading or trailing separators produce empty
segments, and the empty string yields one empty segment. -/
def splitSegs : List Char → List (List Char)
  | [] => [[]]
  | c :: rest =>
      let r := splitSegs rest
      if c = '/' then [] :: r
      else
        match r with
        | [] => [[c]]
        | s :: ss => (c :: s) :: ss

/-- `[p for p in path.split("/") if p]`: split on the separator and drop
empty segments. -/
def normalize_path (path : String) : List String :=
  ((splitSegs path.toList).map (fun s => String.mk s)).filter (fun p => p ≠ "")

/-- split a segment list into `(parts[:-1], parts[-1])`, or `none` when empty. -/
def splitLast : List String → Option (List String × String)
  | [] => none
  | [x] => some ([], x)
  | x :: y :: rest =>
      match splitLast (y :: rest) with
      | none => none
      | some (ys, l) => some (x :: ys, l)

/-- `Remote._walk_to_tree`: resolve a subtree by the non-leaf segments,
failing when a component is missing or is not a directory. -/
def walk_to_tree : GitEntries → List String → Except GitError GitEntries
  | tree, [] => .ok tree
  | tree, name :: rest =>
      match entLookup tree name with
      | none => .error .dirNotFound
      | some (.blob _ _) => .error .componentNotADirectory
      | some (.tree sub) => walk_to_tree sub rest

/-- Fused walk-then-lookup of a full path: equivalent to
`walk_to_tree` on `parts[:-1]` followed by the leaf lookup (the shape the
source uses in `get_file_content` and `rename_file`); proved equal below. -/
def lookup_leaf : GitEntries → List String → Except GitError GitObj
  | _, [] => .error .emptyPath
  | tree, [last] =>
      match entLookup tree last with
      | none => .error .fileNotFound
      | some o => .ok o
  | tree, name :: next :: rest =>
      match entLookup tree name with
      | none => .error .dirNotFound
      | some (.blob _ _) => .error .componentNotADirectory
      | some (.tree sub) => lookup_leaf sub (next :: rest)

/-- `Remote.get_file_content` on a root tree: normalize the path, walk to the
parent tree, look up the leaf, fail `isADirectory` on a tree entry, and return
the blob content (UTF-8 decode of valid content is the identity). -/
def get_file_content (tree : GitEntries) (path : String) : Except GitError String :=
  match splitLast (normalize_path path) with
  | none => .error .emptyPath
  | some (dirs, last) =>
      match walk_to_tree tree dirs with
      | .error e => .error e
      | .ok parent =>
          match entLookup parent last with
          | none => .error .fileNotFound
          | some (.tree _) => .error .isADirectory
          | some (.blob _ data) => .ok data

/-- The `sub_tree_obj` computation of `_write_tree_with_update` (lines
112-119): the existing child tree at `dirname`, or `none` when the base is
absent, the entry is absent, or the entry is not a directory (the source
comment reads "overwrite non-dir with new dir"). -/
def child_tree (base : Option GitEntries) (dirname : String) : Option GitEntries :=
  match base with
  | none => none
  | some t =>
      match entLookup t dirname with
      | none => none
      | some (.blob _ _) => none
      | some (.tree es) => some es

/-- `Remote._write_tree_with_update`: rebuild the ancestor chain of
`path_parts`, creating missing directories, and set the leaf to a blob with
the given content and mode.  A non-tree entry met at a non-leaf segment is
silently replaced by a fresh directory.  `path_parts[0]` on an empty list
raises `IndexError`. -/
def write_tree_with_update (base : Option GitEntries) (parts : List String)
    (blobData : String) (leafMode : Nat) : Except GitError GitEntries :=
  match parts with
  | [] => .error .indexError
  | [filename] =>
      .ok (entInsert (base.getD .nil) filename (.blob leafMode blobData))
  | dirname :: next :: rest =>
      match write_tree_with_update (child_tree base dirname) (next :: rest)
          blobData leafMode with
      | .error e => .error e
      | .ok newSub => .ok (entInsert (base.getD .nil) dirname (.tree newSub))

/-- `Remote._write_tree_with_delete`: remove the blob at `path_parts`,
pruning every directory that becomes empty (`none` means "this level became
empty; the caller removes the entry instead of keeping an empty tree"). -/
def write_tree_with_delete (base : Option GitEntries) (parts : List String) :
    Except GitError (Option GitEntries) :=
  match base with
  | none => .error .pathNotFound
  | some t =>
      match parts with
      | [] => .error .indexError
      | name :: rest =>
          match entLookup t name with
          | none => .error .pathNotFound
          | some entry =>
              match rest with
              | [] =>
                  match entry with
                  | .tree _ => .error .isADirectory
                  | .blob _ _ =>
                      let t2 := entRemove t name
                      .ok (if entLen t2 == 0 then none else some t2)
              | next :: more =>
                  match entry with
                  | .blob _ _ => .error .componentNotADirectory
                  | .tree sub =>
                      match write_tree_with_delete (some sub) (next :: more) with
                      | .error e => .error e
                      | .ok none =>
                          let t2 := entRemove t name
                          .ok (if entLen t2 == 0 then none else some t2)
                      | .ok (some newSub) =>
                          let t2 := entInsert t name (.tree newSub)
                          .ok (if entLen t2 == 0 then none else some t2)

/-- the tree a delete result denotes: `none` (fully pruned) is the empty tree
the caller writes in its place. -/
def optTree : Option GitEntries → GitEntries
  | none => .nil
  | some t => t

/-- A version record: the root tree plus the commit message (authorship is a
fixed signature in the source and never varies in any claim). -/
structure GitCommit where
  tree : GitEntries
  message : String

/-- Repository state: the head commit the ref points at, the predecessor
chain behind it, and the log of blob objects written into the object store
(newest first) — enough to observe "a new Version was created" and "a blob
object was created before the failure". -/
structure RepoState where
  head : GitCommit
  prev : List GitCommit
  blobs : List String

/-- build a fresh single-commit state over a root tree. -/
def mkState (t : GitEntries) : RepoState :=
  { head := { tree := t, message := "init" }, prev := [], blobs := [] }

/-- advance the ref: the new commit's predecessor is the current head. -/
def commitState (st : RepoState) (newTree : GitEntries) (msg : String) :
    RepoState × Except GitError GitCommit :=
  let c : GitCommit := { tree := newTree, message := msg }
  ({ st with head := c, prev := st.head :: st.prev }, .ok c)

/-- `Remote.get_files`: listing of the tip commit's tree. -/
def get_files (st : RepoState) : List (String × Option Listing) :=
  tree_to_dict st.head.tree

/-- `Remote.update_file_content`: create a blob for the new content, rebuild
the tree, and commit.  Note the blob is created before the path is inspected,
and there is no emptiness check on the segment list and no fail-if-missing
parameter: the function upserts unconditionally. -/
def update_file_content (st : RepoState) (path newContent : String)
    (message : Option String) : RepoState × Except GitError GitCommit :=
  let baseTree := st.head.tree
  let st1 := { st with blobs := newContent :: st.blobs }
  let parts := normalize_path path
  match write_tree_with_update (some baseTree) parts newContent GITMODE_FILE with
  | .error e => (st1, .error e)
  | .ok newTree => commitState st1 newTree (message.getD ("Update " ++ path))

/-- The body of the existence check shared by `create_file` (lines 232-243)
and `rename_file`'s destination check (lines 391-402): walk to the parent
tree and, when the leaf name exists and `fail_if_exists` is set, raise
`KeyError("File already exists" / "Destination already exists")`.  In the
source both blocks sit inside `try: ... except KeyError: pass`, so every
error they produce — including the deliberate conflict raise — is swallowed
and the operation proceeds regardless. -/
def create_existence_check (baseTree : GitEntries) (parts : List String)
    (failIfExists : Bool) : Except GitError Unit :=
  match splitLast parts with
  | none => .error .emptyPath
  | some (dirs, last) =>
      match walk_to_tree baseTree dirs with
      | .error e => .error e
      | .ok parent =>
          if hasName parent last && failIfExists then .error .alreadyExists
          else .ok ()

/-- `Remote.create_file`: empty-path check, the (swallowed) existence check,
then blob creation, tree rebuild and commit. -/
def create_file (st : RepoState) (path content : String)
    (message : Option String) (failIfExists : Bool) :
    RepoState × Except GitError GitCommit :=
  let baseTree := st.head.tree
  let parts := normalize_path path
  if parts = [] then (st, .error .emptyPath)
  else
    let _ := create_existence_check baseTree parts failIfExists
    let st1 := { st with blobs := content :: st.blobs }
    match write_tree_with_update (some baseTree) parts content GITMODE_FILE with
    | .error e => (st1, .error e)
    | .ok newTree => commitState st1 newTree (message.getD ("Create " ++ path))

/-- `Remote.delete_file`: empty-path check, pruning delete (a fully pruned
root becomes a fresh empty tree object), then commit. -/
def delete_file (st : RepoState) (path : String) (message : Option String) :
    RepoState × Except GitError GitCommit :=
  let baseTree := st.head.tree
  let parts := normalize_path path
  if parts = [] then (st, .error .emptyPath)
  else
    match write_tree_with_delete (some baseTree) parts with
    | .error e => (st, .error e)
    | .ok res => commitState st (optTree res) (message.getD ("Delete " ++ path))

/-- `Remote.rename_file`: resolve the source leaf (must be a blob), run the
destination-existence check (whose conflict raise is swallowed by
`except KeyError: pass`, exactly as in `create_file`), delete the source with
pruning, reinsert the source blob at the destination preserving its mode, and
commit.  The blob object is reused, so no new blob is logged. -/
def rename_file (st : RepoState) (srcPath dstPath : String)
    (message : Option String) (failIfExists : Bool) :
    RepoState × Except GitError GitCommit :=
  if srcPath = "" ∨ dstPath = "" then (st, .error .invalidPath)
  else
    let baseTree := st.head.tree
    let srcParts := normalize_path srcPath
    let dstParts := normalize_path dstPath
    if srcParts = [] ∨ dstParts = [] then (st, .error .invalidPath)
    else
      match splitLast srcParts with
      | none => (st, .error .invalidPath)
      | some (srcDirs, srcLast) =>
          match walk_to_tree baseTree srcDirs with
          | .error e => (st, .error e)
          | .ok srcParent =>
              match entLookup srcParent srcLast with
              | none => (st, .error .srcNotFound)
              | some (.tree _) => (st, .error .srcIsADirectory)
              | some (.blob leafMode blobData) =>
                  let _ := create_existence_check baseTree dstParts failIfExists
                  match write_tree_with_delete (some baseTree) srcParts with
                  | .error e => (st, .error e)
                  | .ok afterDel =>
                      match write_tree_with_update (some (optTree afterDel))
                          dstParts blobData leafMode with
                      | .error e => (st, .error e)
                      | .ok newTree =>
                          commitState st newTree
                            (message.getD
                              ("Rename " ++ srcPath ++ " -> " ++ dstPath))

/-! ### Entry-level lemmas -/

theorem entLookup_entInsert_self : ∀ (es : GitEntries) (n : String) (o : GitObj),
    entLookup (entInsert es n o) n = some o
  | .nil, n, o => by simp [entInsert, entLookup]
  | .cons n0 o0 rest, n, o => by
      by_cases h : n0 = n
      · simp [entInsert, entLookup, h]
      · simp [entInsert, entLookup, h, entLookup_entInsert_self rest n o]

theorem entLookup_entInsert_ne : ∀ (es : GitEntries) (n q : String) (o : GitObj),
    n ≠ q → entLookup (entInsert es n o) q = entLookup es q
  | .nil, n, q, o, h => by simp [entInsert, entLookup, h]
  | .cons n0 o0 rest, n, q, o, h => by
      by_cases h0 : n0 = n
      · subst h0
        simp [entInsert, entLookup, h]
      · by_cases h1 : n0 = q
        · subst h1
          have hqn : ¬ n0 = n := h0
          simp [entInsert, entLookup, hqn]
        · simp [entInsert, entLookup, h0, h1, entLookup_entInsert_ne rest n q o h]

theorem hasName_false_lookup : ∀ (es : GitEntries) (n : String),
    hasName es n = false → entLookup es n = none
  | .nil, _, _ => rfl
  | .cons n0 _ rest, n, h => by
      simp only [hasName, Bool.or_eq_false_iff, decide_eq_false_iff_not] at h
      simp [entLookup, h.1, hasName_false_lookup rest n h.2]

theorem entriesWf_lookup_objWf : ∀ (es : GitEntries) (n : String) (o : GitObj),
    entriesWf es = true → entLookup es n = some o → objWf o = true
  | .nil, _, _, _, h => by simp [entLookup] at h
  | .cons n0 o0 rest, n, o, hwf, h => by
      simp only [entriesWf, Bool.and_eq_true] at hwf
      by_cases h0 : n0 = n
      · simp [entLookup, h0] at h
        exact h ▸ hwf.1.2
      · simp [entLookup, h0] at h
        exact entriesWf_lookup_objWf rest n o hwf.2 h

theorem entriesPruned_lookup : ∀ (es : GitEntries) (n : String) (o : GitObj),
    entriesPruned es = true → entLookup es n = some o → objPruned o = true
  | .nil, _, _, _, h => by simp [entLookup] at h
  | .cons n0 o0 rest, n, o, hp, h => by
      simp only [entriesPruned, Bool.and_eq_true] at hp
      by_cases h0 : n0 = n
      · simp [entLookup, h0] at h
        exact h ▸ hp.1
      · simp [entLookup, h0] at h
        exact entriesPruned_lookup rest n o hp.2 h

theorem entLookup_entRemove_self : ∀ (es : GitEntries) (n : String),
    entriesWf es = true → entLookup (entRemove es n) n = none
  | .nil, _, _ => rfl
  | .cons n0 o0 rest, n, hwf => by
      simp only [entriesWf, Bool.and_eq_true, Bool.not_eq_true'] at hwf
      by_cases h0 : n0 = n
      · subst h0
        simp [entRemove, hasName_false_lookup rest n0 hwf.1.1]
      · simp [entRemove, entLookup, h0, entLookup_entRemove_self rest n hwf.2]

theorem entRemove_pruned : ∀ (es : GitEntries) (n : String),
    entriesPruned es = true → entriesPruned (entRemove es n) = true
  | .nil, _, _ => rfl
  | .cons n0 o0 rest, n, hp => by
      simp only [entriesPruned, Bool.and_eq_true] at hp
      by_cases h0 : n0 = n
      · simpa [entRemove, h0] using hp.2
      · simp [entRemove, entriesPruned, h0, hp.1, entRemove_pruned rest n hp.2]

theorem entInsert_pruned : ∀ (es : GitEntries) (n : String) (o : GitObj),
    entriesPruned es = true → objPruned o = true →
    entriesPruned (entInsert es n o) = true
  | .nil, n, o, _, ho => by simp [entInsert, entriesPruned, ho]
  | .cons n0 o0 rest, n, o, hp, ho => by
      simp only [entriesPruned, Bool.and_eq_true] at hp
      by_cases h0 : n0 = n
      · simp [entInsert, h0, entriesPruned, ho, hp.2]
      · simp [entInsert, h0, entriesPruned, hp.1, entInsert_pruned rest n o hp.2 ho]

/-! ### splitLast and lookup bridge -/

theorem splitLast_cons_isSome : ∀ (x : String) (rest : List String),
    ∃ d l, splitLast (x :: rest) = some (d, l)
  | x, [] => ⟨[], x, rfl⟩
  | x, y :: rest => by
      obtain ⟨d, l, h⟩ := splitLast_cons_isSome y rest
      exact ⟨x :: d, l, by simp [splitLast, h]⟩

theorem splitLast_eq_none : ∀ (l : List String), splitLast l = none ↔ l = []
  | [] => by simp [splitLast]
  | [x] => by simp [splitLast]
  | x :: y :: rest => by
      obtain ⟨d, l, h⟩ := splitLast_cons_isSome y rest
      simp [splitLast, h]

theorem lookup_leaf_split : ∀ (parts : List String) (tree : GitEntries)
    (dirs : List String) (last : String),
    splitLast parts = some (dirs, last) →
    lookup_leaf tree parts =
      (match walk_to_tree tree dirs with
       | .error e => .error e
       | .ok parent =>
           match entLookup parent last with
           | none => .error .fileNotFound
           | some o => .ok o)
  | [], _, _, _, h => by simp [splitLast] at h
  | [x], tree, dirs, last, h => by
      simp only [splitLast, Option.some_inj, Prod.mk.injEq] at h
      obtain ⟨hd, hl⟩ := h
      subst hd; subst hl
      simp [lookup_leaf, walk_to_tree]
  | x :: y :: rest, tree, dirs, last, h => by
      obtain ⟨d, l, hs⟩ := splitLast_cons_isSome y rest
      rw [show splitLast (x :: y :: rest) = some (x :: d, l) by simp [splitLast, hs]] at h
      simp only [Option.some_inj, Prod.mk.injEq] at h
      obtain ⟨hd, hl⟩ := h
      subst hl
      rw [← hd]
      show lookup_leaf tree (x :: y :: rest) = _
      simp only [lookup_leaf, walk_to_tree]
      match hx : entLookup tree x with
      | none => simp
      | some (.blob mo d0) => simp
      | some (.tree sub) => simpa using lookup_leaf_split (y :: rest) sub d l hs

theorem get_file_content_eq (tree : GitEntries) (path : String) :
    get_file_content tree path =
      (match lookup_leaf tree (normalize_path path) with
       | .error e => .error e
       | .ok (.tree _) => .error .isADirectory
       | .ok (.blob _ d) => .ok d) := by
  match h : splitLast (normalize_path path) with
  | none =>
      have : normalize_path path = [] := (splitLast_eq_none _).1 h
      rw [get_file_content, h, this]
      simp [lookup_leaf]
  | some (dirs, last) =>
      rw [get_file_content, h, lookup_leaf_split (normalize_path path) tree dirs last h]
      cases hw : walk_to_tree tree dirs with
      | error e => simp [hw]
      | ok parent =>
          cases hl : entLookup parent last with
          | none => simp [hw, hl]
          | some o =>
              cases o with
              | blob mo d => simp [hw, hl]
              | tree es => simp [hw, hl]

/-! ### Insert-path lemmas -/

theorem write_roundtrip : ∀ (parts : List String) (base : Option GitEntries)
    (b : String) (m : Nat), parts ≠ [] →
    ∃ T, write_tree_with_update base parts b m = .ok T ∧
      lookup_leaf T parts = .ok (.blob m b)
  | [], _, _, _, h => absurd rfl h
  | [f], base, b, m, _ =>
      ⟨entInsert (base.getD .nil) f (.blob m b), by simp [write_tree_with_update], by
        simp [lookup_leaf, entLookup_entInsert_self]⟩
  | d :: n2 :: rest, base, b, m, _ => by
      obtain ⟨T, hT, hL⟩ :=
        write_roundtrip (n2 :: rest) (child_tree base d) b m (by simp)
      refine ⟨entInsert (base.getD .nil) d (.tree T), ?_, ?_⟩
      · simp only [write_tree_with_update]
        rw [hT]
      · simp [lookup_leaf, entLookup_entInsert_self, hL]

theorem update_prefix_dirs : ∀ (parts : List String) (base : Option GitEntries)
    (b : String) (m : Nat) (T : GitEntries),
    write_tree_with_update base parts b m = .ok T →
    ∀ i, i < parts.length - 1 →
    ∃ es, lookup_leaf T (List.take (i + 1) parts) = .ok (.tree es)
  | [], _, _, _, _, h, _, _ => by simp [write_tree_with_update] at h
  | [f], _, _, _, _, _, i, hi => by simp at hi
  | d :: n2 :: rest, base, b, m, T, hT, i, hi => by
      rw [write_tree_with_update] at hT
      cases hsub : write_tree_with_update (child_tree base d) (n2 :: rest) b m with
      | error e => rw [hsub] at hT; exact absurd hT (by simp)
      | ok newSub =>
          rw [hsub] at hT
          simp only [Except.ok.injEq] at hT
          subst hT
          match i with
          | 0 =>
              refine ⟨newSub, ?_⟩
              simp [lookup_leaf, entLookup_entInsert_self]
          | j + 1 =>
              have hj : j < (n2 :: rest).length - 1 := by
                simp only [List.length_cons] at hi ⊢
                omega
              obtain ⟨es, hes⟩ :=
                update_prefix_dirs (n2 :: rest) (child_tree base d) b m newSub hsub j hj
              refine ⟨es, ?_⟩
              rw [List.take_succ_cons]
              have hne : List.take (j + 1) (n2 :: rest) = n2 :: List.take j rest :=
                List.take_succ_cons
              rw [hne] at hes ⊢
              simpa [lookup_leaf, entLookup_entInsert_self] using hes

/-! ### Frame lemmas for the insert path -/

theorem frame_update : ∀ (qq pp : List String) (tree : GitEntries) (b : String)
    (m : Nat) (o : GitObj) (T : GitEntries),
    ¬ pp <+: qq → ¬ qq <+: pp →
    lookup_leaf tree qq = .ok o →
    write_tree_with_update (some tree) pp b m = .ok T →
    lookup_leaf T qq = .ok o
  | [], _, _, _, _, _, _, _, _, hq, _ => by simp [lookup_leaf] at hq
  | _ :: _, [], _, _, _, _, _, hnp, _, _, _ => absurd (List.nil_prefix) hnp
  | [y], [x], tree, b, m, o, T, hnp, _, hq, hT => by
      have hxy : x ≠ y := by
        intro h; subst h; exact hnp (List.prefix_refl _)
      rw [write_tree_with_update] at hT
      simp only [Option.getD_some, Except.ok.injEq] at hT
      subst hT
      simp only [lookup_leaf] at hq ⊢
      rw [entLookup_entInsert_ne tree x y (.blob m b) hxy]
      exact hq
  | [y], x :: x2 :: pr, tree, b, m, o, T, _, hnq, hq, hT => by
      have hxy : x ≠ y := by
        intro h; subst h
        exact hnq (by simp [List.cons_prefix_cons, List.nil_prefix])
      rw [write_tree_with_update] at hT
      cases hsub : write_tree_with_update (child_tree (some tree) x) (x2 :: pr) b m with
      | error e => rw [hsub] at hT; exact absurd hT (by simp)
      | ok newSub =>
          rw [hsub] at hT
          simp only [Option.getD_some, Except.ok.injEq] at hT
          subst hT
          simp only [lookup_leaf] at hq ⊢
          rw [entLookup_entInsert_ne tree x y (.tree newSub) hxy]
          exact hq
  | y :: y2 :: qr, [x], tree, b, m, o, T, hnp, _, hq, hT => by
      have hxy : x ≠ y := by
        intro h; subst h
        exact hnp (by simp [List.cons_prefix_cons, List.nil_prefix])
      rw [write_tree_with_update] at hT
      simp only [Option.getD_some, Except.ok.injEq] at hT
      subst hT
      simp only [lookup_leaf] at hq ⊢
      rw [entLookup_entInsert_ne tree x y (.blob m b) hxy]
      exact hq
  | y :: y2 :: qr, x :: x2 :: pr, tree, b, m, o, T, hnp, hnq, hq, hT => by
      rw [write_tree_with_update] at hT
      cases hsub : write_tree_with_update (child_tree (some tree) x) (x2 :: pr) b m with
      | error e => rw [hsub] at hT; exact absurd hT (by simp)
      | ok newSub =>
          rw [hsub] at hT
          simp only [Option.getD_some, Except.ok.injEq] at hT
          subst hT
          by_cases hxy : x = y
          · subst hxy
            simp only [lookup_leaf] at hq ⊢
            cases hy : entLookup tree x with
            | none => rw [hy] at hq; exact absurd hq (by simp)
            | some entry =>
                cases entry with
                | blob bm bd => rw [hy] at hq; exact absurd hq (by simp)
                | tree sub =>
                    rw [hy] at hq
                    have hct : child_tree (some tree) x = some sub := by
                      simp [child_tree, hy]
                    rw [hct] at hsub
                    rw [entLookup_entInsert_self]
                    have hp2 : ¬ (x2 :: pr) <+: (y2 :: qr) := by
                      intro hc; exact hnp (by simp [List.cons_prefix_cons, hc])
                    have hq2 : ¬ (y2 :: qr) <+: (x2 :: pr) := by
                      intro hc; exact hnq (by simp [List.cons_prefix_cons, hc])
                    exact frame_update (y2 :: qr) (x2 :: pr) sub b m o newSub hp2 hq2 hq hsub
          · simp only [lookup_leaf] at hq ⊢
            rw [entLookup_entInsert_ne tree x y (.tree newSub) hxy]
            exact hq

theorem fresh_nf : ∀ (qq pp : List String) (b : String) (m : Nat) (T : GitEntries),
    ¬ pp <+: qq → ¬ qq <+: pp →
    write_tree_with_update none pp b m = .ok T →
    failsNotFound (lookup_leaf T qq) = true
  | [], _, _, _, _, _, hnq, _ => absurd (List.nil_prefix) hnq
  | _ :: _, [], _, _, _, hnp, _, _ => absurd (List.nil_prefix) hnp
  | [y], [x], b, m, T, hnp, _, hT => by
      have hxy : x ≠ y := by
        intro h; subst h; exact hnp (List.prefix_refl _)
      rw [write_tree_with_update] at hT
      simp only [Except.ok.injEq] at hT
      subst hT
      simp [lookup_leaf, entInsert, entLookup, hxy, failsNotFound, notFoundErr,
        Option.getD]
  | [y], x :: x2 :: pr, b, m, T, _, hnq, hT => by
      have hxy : x ≠ y := by
        intro h; subst h
        exact hnq (by simp [List.cons_prefix_cons, List.nil_prefix])
      rw [write_tree_with_update] at hT
      cases hsub : write_tree_with_update (child_tree none x) (x2 :: pr) b m with
      | error e => rw [hsub] at hT; exact absurd hT (by simp)
      | ok newSub =>
          rw [hsub] at hT
          simp only [Except.ok.injEq] at hT
          subst hT
          simp [lookup_leaf, entInsert, entLookup, hxy, failsNotFound, notFoundErr,
            Option.getD]
  | y :: y2 :: qr, [x], b, m, T, hnp, _, hT => by
      have hxy : x ≠ y := by
        intro h; subst h
        exact hnp (by simp [List.cons_prefix_cons, List.nil_prefix])
      rw [write_tree_with_update] at hT
      simp only [Except.ok.injEq] at hT
      subst hT
      simp [lookup_leaf, entInsert, entLookup, hxy, failsNotFound, notFoundErr,
        Option.getD]
  | y :: y2 :: qr, x :: x2 :: pr, b, m, T, hnp, hnq, hT => by
      rw [write_tree_with_update] at hT
      cases hsub : write_tree_with_update (child_tree none x) (x2 :: pr) b m with
      | error e => rw [hsub] at hT; exact absurd hT (by simp)
      | ok newSub =>
          rw [hsub] at hT
          simp only [Except.ok.injEq] at hT
          subst hT
          by_cases hxy : x = y
          · subst hxy
            have hp2 : ¬ (x2 :: pr) <+: (y2 :: qr) := by
              intro hc; exact hnp (by simp [List.cons_prefix_cons, hc])
            have hq2 : ¬ (y2 :: qr) <+: (x2 :: pr) := by
              intro hc; exact hnq (by simp [List.cons_prefix_cons, hc])
            have hrec := fresh_nf (y2 :: qr) (x2 :: pr) b m newSub hp2 hq2 hsub
            simpa [lookup_leaf, entInsert, entLookup, Option.getD] using hrec
          · simp [lookup_leaf, entInsert, entLookup, hxy, failsNotFound, notFoundErr,
              Option.getD]

theorem nf_update : ∀ (qq pp : List String) (tree : GitEntries) (b : String)
    (m : Nat) (T : GitEntries),
    ¬ pp <+: qq → ¬ qq <+: pp →
    failsNotFound (lookup_leaf tree qq) = true →
    write_tree_with_update (some tree) pp b m = .ok T →
    failsNotFound (lookup_leaf T qq) = true
  | [], _, _, _, _, _, _, hnq, _, _ => absurd (List.nil_prefix) hnq
  | _ :: _, [], _, _, _, _, hnp, _, _, _ => absurd (List.nil_prefix) hnp
  | [y], [x], tree, b, m, T, hnp, _, hq, hT => by
      have hxy : x ≠ y := by
        intro h; subst h; exact hnp (List.prefix_refl _)
      rw [write_tree_with_update] at hT
      simp only [Option.getD_some, Except.ok.injEq] at hT
      subst hT
      simp only [lookup_leaf, failsNotFound] at hq ⊢
      rw [entLookup_entInsert_ne tree x y (.blob m b) hxy]
      exact hq
  | [y], x :: x2 :: pr, tree, b, m, T, _, hnq, hq, hT => by
      have hxy : x ≠ y := by
        intro h; subst h
        exact hnq (by simp [List.cons_prefix_cons, List.nil_prefix])
      rw [write_tree_with_update] at hT
      cases hsub : write_tree_with_update (child_tree (some tree) x) (x2 :: pr) b m with
      | error e => rw [hsub] at hT; exact absurd hT (by simp)
      | ok newSub =>
          rw [hsub] at hT
          simp only [Option.getD_some, Except.ok.injEq] at hT
          subst hT
          simp only [lookup_leaf, failsNotFound] at hq ⊢
          rw [entLookup_entInsert_ne tree x y (.tree newSub) hxy]
          exact hq
  | y :: y2 :: qr, [x], tree, b, m, T, hnp, _, hq, hT => by
      have hxy : x ≠ y := by
        intro h; subst h
        exact hnp (by simp [List.cons_prefix_cons, List.nil_prefix])
      rw [write_tree_with_update] at hT
      simp only [Option.getD_some, Except.ok.injEq] at hT
      subst hT
      simp only [lookup_leaf, failsNotFound] at hq ⊢
      rw [entLookup_entInsert_ne tree x y (.blob m b) hxy]
      exact hq
  | y :: y2 :: qr, x :: x2 :: pr, tree, b, m, T, hnp, hnq, hq, hT => by
      rw [write_tree_with_update] at hT
      cases hsub : write_tree_with_update (child_tree (some tree) x) (x2 :: pr) b m with
      | error e => rw [hsub] at hT; exact absurd hT (by simp)
      | ok newSub =>
          rw [hsub] at hT
          simp only [Option.getD_some, Except.ok.injEq] at hT
          subst hT
          by_cases hxy : x = y
          · subst hxy
            have hp2 : ¬ (x2 :: pr) <+: (y2 :: qr) := by
              intro hc; exact hnp (by simp [List.cons_prefix_cons, hc])
            have hq2 : ¬ (y2 :: qr) <+: (x2 :: pr) := by
              intro hc; exact hnq (by simp [List.cons_prefix_cons, hc])
            cases hy : entLookup tree x with
            | none =>
                have hct : child_tree (some tree) x = none := by
                  simp [child_tree, hy]
                rw [hct] at hsub
                have hrec := fresh_nf (y2 :: qr) (x2 :: pr) b m newSub hp2 hq2 hsub
                simp only [lookup_leaf]
                rw [entLookup_entInsert_self]
                exact hrec
            | some entry =>
                cases entry with
                | blob bm bd =>
                    rw [lookup_leaf, hy] at hq
                    exact absurd hq (by simp [failsNotFound, notFoundErr])
                | tree sub =>
                    have hct : child_tree (some tree) x = some sub := by
                      simp [child_tree, hy]
                    rw [hct] at hsub
                    rw [lookup_leaf, hy] at hq
                    have hrec :=
                      nf_update (y2 :: qr) (x2 :: pr) sub b m newSub hp2 hq2 hq hsub
                    simp only [lookup_leaf]
                    rw [entLookup_entInsert_self]
                    exact hrec
          · simp only [lookup_leaf, failsNotFound] at hq ⊢
            rw [entLookup_entInsert_ne tree x y (.tree newSub) hxy]
            exact hq

/-! ### Step equations and lemmas for the delete path -/

theorem wtd_absent (t : GitEntries) (name : String) (rest : List String)
    (hy : entLookup t name = none) :
    write_tree_with_delete (some t) (name :: rest) = .error .pathNotFound := by
  rw [write_tree_with_delete, hy]

theorem wtd_leaf_tree (t : GitEntries) (f : String) (sub : GitEntries)
    (hy : entLookup t f = some (.tree sub)) :
    write_tree_with_delete (some t) [f] = .error .isADirectory := by
  rw [write_tree_with_delete, hy]

theorem wtd_leaf_blob (t : GitEntries) (f : String) (mo : Nat) (c : String)
    (hy : entLookup t f = some (.blob mo c)) :
    write_tree_with_delete (some t) [f] =
      .ok (if entLen (entRemove t f) == 0 then none else some (entRemove t f)) := by
  rw [write_tree_with_delete, hy]

theorem wtd_cons_blob (t : GitEntries) (f n2 : String) (rest : List String)
    (mo : Nat) (c : String) (hy : entLookup t f = some (.blob mo c)) :
    write_tree_with_delete (some t) (f :: n2 :: rest) =
      .error .componentNotADirectory := by
  rw [write_tree_with_delete, hy]

theorem wtd_cons_tree (t : GitEntries) (f n2 : String) (rest : List String)
    (sub : GitEntries) (hy : entLookup t f = some (.tree sub)) :
    write_tree_with_delete (some t) (f :: n2 :: rest) =
      match write_tree_with_delete (some sub) (n2 :: rest) with
      | .error e => .error e
      | .ok none =>
          .ok (if entLen (entRemove t f) == 0 then none
               else some (entRemove t f))
      | .ok (some newSub) =>
          .ok (if entLen (entInsert t f (.tree newSub)) == 0 then none
               else some (entInsert t f (.tree newSub))) := by
  rw [write_tree_with_delete, hy]

theorem delete_ok : ∀ (parts : List String) (tree : GitEntries) (mo : Nat)
    (c : String),
    lookup_leaf tree parts = .ok (.blob mo c) →
    ∃ r, write_tree_with_delete (some tree) parts = .ok r
  | [], _, _, _, hq => by simp [lookup_leaf] at hq
  | [f], tree, mo, c, hq => by
      cases hy : entLookup tree f with
      | none => rw [lookup_leaf, hy] at hq; exact absurd hq (by simp)
      | some entry =>
          rw [lookup_leaf, hy] at hq
          simp only [Except.ok.injEq] at hq
          subst hq
          exact ⟨_, wtd_leaf_blob tree f mo c hy⟩
  | f :: n2 :: rest, tree, mo, c, hq => by
      cases hy : entLookup tree f with
      | none => rw [lookup_leaf, hy] at hq; exact absurd hq (by simp)
      | some entry =>
          cases entry with
          | blob bm bd => rw [lookup_leaf, hy] at hq; exact absurd hq (by simp)
          | tree sub =>
              rw [lookup_leaf, hy] at hq
              obtain ⟨r2, hr2⟩ := delete_ok (n2 :: rest) sub mo c hq
              rw [wtd_cons_tree tree f n2 rest sub hy, hr2]
              cases r2 with
              | none => exact ⟨_, rfl⟩
              | some newSub => exact ⟨_, rfl⟩

theorem after_delete_nf : ∀ (parts : List String) (tree : GitEntries)
    (r : Option GitEntries),
    entriesWf tree = true →
    write_tree_with_delete (some tree) parts = .ok r →
    failsNotFound (lookup_leaf (optTree r) parts) = true
  | [], tree, r, _, hT => by simp [write_tree_with_delete] at hT
  | [f], tree, r, hwf, hT => by
      cases hy : entLookup tree f with
      | none => rw [wtd_absent tree f [] hy] at hT; exact absurd hT (by simp)
      | some entry =>
          cases entry with
          | tree sub =>
              rw [wtd_leaf_tree tree f sub hy] at hT
              exact absurd hT (by simp)
          | blob bm bd =>
              rw [wtd_leaf_blob tree f bm bd hy] at hT
              simp only [Except.ok.injEq] at hT
              cases hz : entLen (entRemove tree f) == 0 with
              | true =>
                  rw [hz] at hT
                  simp only [if_pos rfl] at hT
                  subst hT
                  simp [optTree, lookup_leaf, entLookup, failsNotFound, notFoundErr]
              | false =>
                  rw [hz] at hT
                  simp only [Bool.false_eq_true, if_false] at hT
                  subst hT
                  simp [optTree, lookup_leaf, entLookup_entRemove_self tree f hwf,
                    failsNotFound, notFoundErr]
  | f :: n2 :: rest, tree, r, hwf, hT => by
      cases hy : entLookup tree f with
      | none => rw [wtd_absent tree f (n2 :: rest) hy] at hT; exact absurd hT (by simp)
      | some entry =>
          cases entry with
          | blob bm bd =>
              rw [wtd_cons_blob tree f n2 rest bm bd hy] at hT
              exact absurd hT (by simp)
          | tree sub =>
              rw [wtd_cons_tree tree f n2 rest sub hy] at hT
              cases hrec : write_tree_with_delete (some sub) (n2 :: rest) with
              | error e => rw [hrec] at hT; exact absurd hT (by simp)
              | ok r2 =>
                  rw [hrec] at hT
                  cases r2 with
                  | none =>
                      simp only [Except.ok.injEq] at hT
                      cases hz : entLen (entRemove tree f) == 0 with
                      | true =>
                          rw [hz] at hT
                          simp only [if_pos rfl] at hT
                          subst hT
                          simp [optTree, lookup_leaf, entLookup, failsNotFound,
                            notFoundErr]
                      | false =>
                          rw [hz] at hT
                          simp only [Bool.false_eq_true, if_false] at hT
                          subst hT
                          simp [optTree, lookup_leaf,
                            entLookup_entRemove_self tree f hwf, failsNotFound,
                            notFoundErr]
                  | some newSub =>
                      simp only [Except.ok.injEq] at hT
                      cases hz : entLen (entInsert tree f (.tree newSub)) == 0 with
                      | true =>
                          rw [hz] at hT
                          simp only [if_pos rfl] at hT
                          subst hT
                          simp [optTree, lookup_leaf, entLookup, failsNotFound,
                            notFoundErr]
                      | false =>
                          rw [hz] at hT
                          simp only [Bool.false_eq_true, if_false] at hT
                          subst hT
                          have hwfsub : entriesWf sub = true := by
                            have := entriesWf_lookup_objWf tree f (.tree sub) hwf hy
                            simpa [objWf] using this
                          have hrecnf :=
                            after_delete_nf (n2 :: rest) sub (some newSub) hwfsub hrec
                          simp only [optTree] at hrecnf ⊢
                          simp only [lookup_leaf]
                          rw [entLookup_entInsert_self]
                          exact hrecnf

theorem delete_pruned : ∀ (parts : List String) (tree : GitEntries)
    (r : Option GitEntries),
    entriesPruned tree = true →
    write_tree_with_delete (some tree) parts = .ok r →
    entriesPruned (optTree r) = true ∧ ∀ t2, r = some t2 → entLen t2 ≠ 0
  | [], tree, r, _, hT => by simp [write_tree_with_delete] at hT
  | [f], tree, r, hpr, hT => by
      cases hy : entLookup tree f with
      | none => rw [wtd_absent tree f [] hy] at hT; exact absurd hT (by simp)
      | some entry =>
          cases entry with
          | tree sub =>
              rw [wtd_leaf_tree tree f sub hy] at hT
              exact absurd hT (by simp)
          | blob bm bd =>
              rw [wtd_leaf_blob tree f bm bd hy] at hT
              simp only [Except.ok.injEq] at hT
              cases hz : entLen (entRemove tree f) == 0 with
              | true =>
                  rw [hz] at hT
                  simp only [if_pos rfl] at hT
                  subst hT
                  exact ⟨rfl, by intro t2 h; simp at h⟩
              | false =>
                  rw [hz] at hT
                  simp only [Bool.false_eq_true, if_false] at hT
                  subst hT
                  refine ⟨entRemove_pruned tree f hpr, ?_⟩
                  intro t2 h
                  simp only [Option.some_inj] at h
                  subst h
                  simpa using hz
  | f :: n2 :: rest, tree, r, hpr, hT => by
      cases hy : entLookup tree f with
      | none => rw [wtd_absent tree f (n2 :: rest) hy] at hT; exact absurd hT (by simp)
      | some entry =>
          cases entry with
          | blob bm bd =>
              rw [wtd_cons_blob tree f n2 rest bm bd hy] at hT
              exact absurd hT (by simp)
          | tree sub =>
              rw [wtd_cons_tree tree f n2 rest sub hy] at hT
              cases hrec : write_tree_with_delete (some sub) (n2 :: rest) with
              | error e => rw [hrec] at hT; exact absurd hT (by simp)
              | ok r2 =>
                  rw [hrec] at hT
                  have hprsub : entriesPruned sub = true := by
                    have := entriesPruned_lookup tree f (.tree sub) hpr hy
                    simp only [objPruned, Bool.and_eq_true] at this
                    exact this.2
                  obtain ⟨hp2, hl2⟩ := delete_pruned (n2 :: rest) sub r2 hprsub hrec
                  cases r2 with
                  | none =>
                      simp only [Except.ok.injEq] at hT
                      cases hz : entLen (entRemove tree f) == 0 with
                      | true =>
                          rw [hz] at hT
                          simp only [if_pos rfl] at hT
                          subst hT
                          exact ⟨rfl, by intro t2 h; simp at h⟩
                      | false =>
                          rw [hz] at hT
                          simp only [Bool.false_eq_true, if_false] at hT
                          subst hT
                          refine ⟨entRemove_pruned tree f hpr, ?_⟩
                          intro t2 h
                          simp only [Option.some_inj] at h
                          subst h
                          simpa using hz
                  | some newSub =>
                      simp only [Except.ok.injEq] at hT
                      have hob : objPruned (.tree newSub) = true := by
                        simp only [objPruned, Bool.and_eq_true, bne_iff_ne, ne_eq]
                        exact ⟨by simpa [optTree] using hl2 newSub rfl,
                          by simpa [optTree] using hp2⟩
                      cases hz : entLen (entInsert tree f (.tree newSub)) == 0 with
                      | true =>
                          rw [hz] at hT
                          simp only [if_pos rfl] at hT
                          subst hT
                          exact ⟨rfl, by intro t2 h; simp at h⟩
                      | false =>
                          rw [hz] at hT
                          simp only [Bool.false_eq_true, if_false] at hT
                          subst hT
                          refine ⟨entInsert_pruned tree f (.tree newSub) hpr hob, ?_⟩
                          intro t2 h
                          simp only [Option.some_inj] at h
                          subst h
                          simpa using hz

/-! ### Bridging lookups to the walk-based resolution used by rename -/

theorem lookup_leaf_to_walk (tree : GitEntries) (parts dirs : List String)
    (last : String) (o : GitObj)
    (hs : splitLast parts = some (dirs, last))
    (hq : lookup_leaf tree parts = .ok o) :
    ∃ parent, walk_to_tree tree dirs = .ok parent ∧
      entLookup parent last = some o := by
  rw [lookup_leaf_split parts tree dirs last hs] at hq
  cases hw : walk_to_tree tree dirs with
  | error e => simp only [hw] at hq; exact absurd hq (by simp)
  | ok parent =>
      simp only [hw] at hq
      cases hl : entLookup parent last with
      | none => simp only [hl] at hq; exact absurd hq (by simp)
      | some o2 =>
          simp only [hl, Except.ok.injEq] at hq
          exact ⟨parent, rfl, hq ▸ hl⟩

/-- a path that currently resolves to a directory or to nothing
(the `NotFound` family); used to state the round-trip claim's hypothesis. -/
def dirOrAbsent (tree : GitEntries) (parts : List String) : Bool :=
  match lookup_leaf tree parts with
  | .ok (.tree _) => true
  | .ok (.blob _ _) => false
  | .error e => notFoundErr e

/-- a path that currently resolves to a blob entry. -/
def blobAt (tree : GitEntries) (parts : List String) : Bool :=
  match lookup_leaf tree parts with
  | .ok (.blob _ _) => true
  | _ => false

/-! ### Sample repository states used in concrete theorems -/

/-- a root tree containing the single file `a.txt` with content "old". -/
def treeOneFile : GitEntries := .cons "a.txt" (.blob GITMODE_FILE "old") .nil

/-- a root tree `{"a": {"b": {"c.txt": "x"}}}`. -/
def treeDeep : GitEntries :=
  .cons "a" (.tree (.cons "b"
    (.tree (.cons "c.txt" (.blob GITMODE_FILE "x") .nil)) .nil)) .nil

/-- a root tree with files `a.txt` ("x") and `b.txt` ("y"). -/
def treeTwoFiles : GitEntries :=
  .cons "a.txt" (.blob GITMODE_FILE "x")
    (.cons "b.txt" (.blob GITMODE_FILE "y") .nil)

/-- a root tree where `a` is a file with content "y". -/
def treeBlobA : GitEntries := .cons "a" (.blob GITMODE_FILE "y") .nil

/-- a root tree `{"a": {"b": "x"}}`. -/
def treeNested : GitEntries :=
  .cons "a" (.tree (.cons "b" (.blob GITMODE_FILE "x") .nil)) .nil

/-- a root tree `{"a": {"b": "x"}, "c.txt": "z"}`. -/
def treeNestedPlus : GitEntries :=
  .cons "a" (.tree (.cons "b" (.blob GITMODE_EXEC "x") .nil))
    (.cons "c.txt" (.blob GITMODE_FILE "z") .nil)

/-! ### The backend serving layer's keyword-argument surface -/

/-- parameter names of `Remote.__init__` (src/remote.py lines 12-14),
besides `self`. -/
def remote_init_params : List String := ["uri", "ref", "token"]

/-- argument names `_get_remote` passes to the `Remote` constructor by
keyword (src/backend/endpoints.py lines 51-57); the uri is positional. -/
def get_remote_call_kwargs : List String :=
  ["ref", "token", "author_name", "author_email"]

/-- parameter names of `Remote.update_file_content` (src/remote.py lines
167-175), besides `self`. -/
def update_file_content_params : List String :=
  ["path", "new_content", "author_name", "author_email", "message", "push"]

/-- keyword arguments `_handle_update_file_content` passes to
`Remote.update_file_content` (src/backend/endpoints.py lines 117-124);
path and content are positional. -/
def handle_update_call_kwargs : List String :=
  ["message", "push", "fail_if_exists", "fail_if_not_exists"]

/-- keyword arguments `_handle_create_file` passes to
`Remote.update_file_content` (src/backend/endpoints.py lines 152-159). -/
def handle_create_call_kwargs : List String :=
  ["message", "push", "fail_if_exists", "fail_if_not_exists"]

/-- A Python call binds without `TypeError` only when every keyword argument
is among the callee's parameter names. -/
def kwargsAccepted (params kwargs : List String) : Bool :=
  kwargs.all (fun k => params.contains k)

/-- `_handle_update_file_content` (routed from PUT/POST /file): on a cache
miss `_get_remote` constructs `Remote`, whose `TypeError` escapes to the
catch-all in `handler` (500); on a cache hit the `update_file_content` call
itself raises `TypeError`, caught by `except Exception` and reported as 500.
A `KeyError` from a performed update would be 400, success 200. -/
def handle_update_file_content (cached : Bool) (st : RepoState)
    (path content : String) (message : Option String) : RepoState × Nat :=
  if !cached && !kwargsAccepted remote_init_params get_remote_call_kwargs then
    (st, 500)
  else if !kwargsAccepted update_file_content_params handle_update_call_kwargs then
    (st, 500)
  else
    match update_file_content st path content message with
    | (st2, .ok _) => (st2, 200)
    | (st2, .error _) => (st2, 400)

/-- `_handle_create_file` (routed from POST /file/create): same structure;
a `KeyError` from a performed call would be 409, success 200. -/
def handle_create_file (cached : Bool) (st : RepoState)
    (path content : String) (message : Option String) : RepoState × Nat :=
  if !cached && !kwargsAccepted remote_init_params get_remote_call_kwargs then
    (st, 500)
  else if !kwargsAccepted update_file_content_params handle_create_call_kwargs then
    (st, 500)
  else
    match update_file_content st path content message with
    | (st2, .ok _) => (st2, 200)
    | (st2, .error _) => (st2, 409)

/-! ### Claim theorems -/

/-- C2: the claim states that `create_file(p, c, fail_if_exists=True)` on an
existing path fails with Conflict and creates no Version.  The code violates
it (and its own docstring): the conflict `KeyError` is raised inside a `try`
whose `except KeyError: pass` swallows it, so on a tree already containing
`a.txt` the create succeeds, overwrites the content, and advances the pointer
to a new Version. -/
theorem C2_create_ignores_fail_if_exists :
    get_file_content treeOneFile "a.txt" = .ok "old" ∧
    exOk (create_file (mkState treeOneFile) "a.txt" "new" none true).2 = true ∧
    get_file_content
      (create_file (mkState treeOneFile) "a.txt" "new" none true).1.head.tree
      "a.txt" = .ok "new" ∧
    (create_file (mkState treeOneFile) "a.txt" "new" none true).1.prev.length
      = 1 :=
  ⟨rfl, rfl, rfl, rfl⟩

/-- C5: the claim states that an update with `fail_if_missing=true` on a
missing path fails with NotFound and creates no Version.
`Remote.update_file_content` has no such parameter at all: on a missing path
it creates the file and a new Version (the serving layer's attempt to pass
`fail_if_not_exists=True` is a `TypeError`, see the C10 theorem). -/
theorem C5_update_creates_missing_file :
    get_file_content GitEntries.nil "a.txt" = .error .fileNotFound ∧
    exOk (update_file_content (mkState .nil) "a.txt" "x" none).2 = true ∧
    get_file_content
      (update_file_content (mkState .nil) "a.txt" "x" none).1.head.tree
      "a.txt" = .ok "x" ∧
    (update_file_content (mkState .nil) "a.txt" "x" none).1.prev.length = 1 :=
  ⟨rfl, rfl, rfl, rfl⟩

/-- C7: the claim states that `rename_file(src, dst, fail_if_exists=True)`
with an existing destination fails with Conflict and creates no Version.  As
in `create_file`, the destination-conflict `KeyError` is swallowed by
`except KeyError: pass`, so renaming `a.txt` onto the existing `b.txt`
succeeds, overwrites it, and creates a new Version. -/
theorem C7_rename_ignores_fail_if_exists :
    get_file_content treeTwoFiles "b.txt" = .ok "y" ∧
    exOk (rename_file (mkState treeTwoFiles) "a.txt" "b.txt" none true).2
      = true ∧
    get_file_content
      (rename_file (mkState treeTwoFiles) "a.txt" "b.txt" none true).1.head.tree
      "b.txt" = .ok "x" ∧
    (rename_file (mkState treeTwoFiles) "a.txt" "b.txt" none true).1.prev.length
      = 1 :=
  ⟨rfl, rfl, rfl, rfl⟩

/-- C8: the claim states every write rejects an empty normalized path with
InvalidPath before creating any object.  `create_file` and `delete_file` do
("Empty path", state unchanged), but `update_file_content` creates the blob
object first and then dies with an uncaught `IndexError` from
`path_parts[0]`, so an object is created before the malformed path is
detected. -/
theorem C8_update_empty_path_creates_blob_then_index_error :
    normalize_path "/" = [] ∧
    update_file_content (mkState treeOneFile) "/" "x" none =
      ({ mkState treeOneFile with blobs := ["x"] }, .error .indexError) ∧
    create_file (mkState treeOneFile) "/" "x" none true =
      (mkState treeOneFile, .error .emptyPath) ∧
    delete_file (mkState treeOneFile) "/" none =
      (mkState treeOneFile, .error .emptyPath) :=
  ⟨rfl, rfl, rfl, rfl⟩

/-- C3 counterexample: the claim states `write("a/b", "x")` where `a` is a
file fails with NotADirectory and leaves the tree unchanged.  In the code
(`_write_tree_with_update`, "overwrite non-dir with new dir") the write
succeeds and the new tree resolves `a/b` to "x". -/
theorem C3_write_below_blob_succeeds_cex :
    get_file_content treeBlobA "a" = .ok "y" ∧
    exOk (update_file_content (mkState treeBlobA) "a/b" "x" none).2 = true ∧
    get_file_content
      (update_file_content (mkState treeBlobA) "a/b" "x" none).1.head.tree
      "a/b" = .ok "x" :=
  ⟨rfl, rfl, rfl⟩

/-- C6 counterexample: the claim asserts for every existing source file that
after `rename_file(src, dst)` reading `src` fails with NotFound.  With
`src = dst = "a.txt"` (an existing file), the rename succeeds — the
destination-conflict check is swallowed — and reading `src` afterwards
returns the content, not NotFound. -/
theorem C6_rename_to_self_cex :
    lookup_leaf treeOneFile (normalize_path "a.txt")
      = .ok (.blob GITMODE_FILE "old") ∧
    exOk (rename_file (mkState treeOneFile) "a.txt" "a.txt" none true).2
      = true ∧
    get_file_content
      (rename_file (mkState treeOneFile) "a.txt" "a.txt" none true).1.head.tree
      "a.txt" = .ok "old" :=
  ⟨rfl, rfl, rfl⟩

/-- C9 counterexample: the claim frames every existing `q` that is not `p`
and not an ancestor of `p` as untouched by a write at `p`.  Take `p = "a"`,
`q = "a/b"` (a descendant of `p`, existing, not an ancestor): the write
replaces the directory `a` by a blob, and `q` stops resolving — its content
is not preserved. -/
theorem C9_write_destroys_descendant_cex :
    lookup_leaf treeNested (normalize_path "a/b")
      = .ok (.blob GITMODE_FILE "x") ∧
    normalize_path "a" = ["a"] ∧
    normalize_path "a/b" = ["a", "b"] ∧
    get_file_content
      (update_file_content (mkState treeNested) "a" "y" none).1.head.tree
      "a/b" = .error .componentNotADirectory :=
  ⟨rfl, rfl, rfl, rfl⟩

/-- C4: `delete_file` removes the leaf and prunes every directory made empty,
recursively to the root.  General part: a successful `_write_tree_with_delete`
leaves the deleted path unresolvable (NotFound family) and preserves the
no-empty-directories invariant, never returning an empty tree as `some`
(a fully emptied level is returned as `none` and pruned by its caller).
Concrete part: deleting `a/b/c.txt` from `{"a": {"b": {"c.txt": "x"}}}`
succeeds and yields an empty listing. -/
theorem C4_delete_prunes_empty_dirs :
    (∀ (tree : GitEntries) (parts : List String) (r : Option GitEntries),
        entriesWf tree = true → entriesPruned tree = true →
        write_tree_with_delete (some tree) parts = .ok r →
        failsNotFound (lookup_leaf (optTree r) parts) = true ∧
        entriesPruned (optTree r) = true ∧
        ∀ t2, r = some t2 → entLen t2 ≠ 0) ∧
    exOk (delete_file (mkState treeDeep) "a/b/c.txt" none).2 = true ∧
    get_files (delete_file (mkState treeDeep) "a/b/c.txt" none).1 = [] := by
  refine ⟨?_, rfl, rfl⟩
  intro tree parts r hwf hpr hT
  exact ⟨after_delete_nf parts tree r hwf hT,
    (delete_pruned parts tree r hpr hT).1,
    (delete_pruned parts tree r hpr hT).2⟩

/-- witness for C4: the general pruning statement applied to the concrete
tree `{"a": {"b": {"c.txt": "x"}}}` and path `a/b/c.txt`, whose delete fully
prunes the root (`r = none`). -/
theorem C4_delete_prunes_empty_dirs_witness :
    failsNotFound (lookup_leaf (optTree none) ["a", "b", "c.txt"]) = true ∧
    entriesPruned (optTree (none : Option GitEntries)) = true ∧
    ∀ t2, (none : Option GitEntries) = some t2 → entLen t2 ≠ 0 :=
  C4_delete_prunes_empty_dirs.1 treeDeep ["a", "b", "c.txt"] none rfl rfl rfl

/-- C10: both backend mutation handlers fail with `TypeError` reported as a
500 response and never create a Version: `_get_remote` constructs `Remote`
with `author_name`/`author_email` keywords `Remote.__init__` does not accept,
and both handlers call `Remote.update_file_content` with `fail_if_exists` and
`fail_if_not_exists` keywords it does not accept.  The state (pointer and
object graph) comes back unchanged whether or not the Remote was cached. -/
theorem C10_backend_kwargs_type_error :
    kwargsAccepted remote_init_params get_remote_call_kwargs = false ∧
    kwargsAccepted update_file_content_params handle_update_call_kwargs
      = false ∧
    kwargsAccepted update_file_content_params handle_create_call_kwargs
      = false ∧
    ∀ (cached : Bool) (st : RepoState) (path content : String)
      (message : Option String),
      handle_update_file_content cached st path content message = (st, 500) ∧
      handle_create_file cached st path content message = (st, 500) := by
  refine ⟨rfl, rfl, rfl, ?_⟩
  intro cached st path content message
  cases cached <;> exact ⟨rfl, rfl⟩

/-- C1: for any path whose normalized segment list is non-empty and whose
proper prefixes each resolve to a directory or are absent, writing content
`c` and then reading the same path returns exactly `c`. -/
theorem C1_update_then_get_roundtrip (st : RepoState) (p c : String)
    (hne : normalize_path p ≠ [])
    (hdirs : ∀ i, i < (normalize_path p).length - 1 →
        dirOrAbsent st.head.tree (List.take (i + 1) (normalize_path p)) = true) :
    get_file_content (update_file_content st p c none).1.head.tree p = .ok c := by
  obtain ⟨T, hT, hL⟩ :=
    write_roundtrip (normalize_path p) (some st.head.tree) c GITMODE_FILE hne
  have hstate : (update_file_content st p c none).1.head.tree = T := by
    simp only [update_file_content, hT, commitState]
  rw [hstate, get_file_content_eq, hL]

/-- witness for C1: writing `hello` at `a/b.txt` over an empty tree (so the
single proper prefix `a` is absent) and reading it back. -/
theorem C1_update_then_get_roundtrip_witness :
    get_file_content
      (update_file_content (mkState .nil) "a/b.txt" "hello" none).1.head.tree
      "a/b.txt" = .ok "hello" :=
  C1_update_then_get_roundtrip (mkState .nil) "a/b.txt" "hello" (by decide)
    (by decide)

/-- C3 amended: a write — `update_file_content` or `create_file` (with
either value of `fail_if_exists`; its NotADirectory walk error is swallowed
by `except KeyError: pass`) — to a path one of whose proper prefixes names
an existing Blob does not fail with NotADirectory: it succeeds, the written
path resolves to the new content, and every proper prefix of the path
resolves to a directory afterwards (the blob was silently replaced by a
fresh directory chain). -/
theorem C3_write_below_blob_amended (st : RepoState) (p c : String)
    (j mo : Nat) (d : String) (fie : Bool)
    (hj : j < (normalize_path p).length - 1)
    (hblob : lookup_leaf st.head.tree (List.take (j + 1) (normalize_path p))
      = .ok (.blob mo d)) :
    (exOk (update_file_content st p c none).2 = true ∧
     get_file_content (update_file_content st p c none).1.head.tree p
       = .ok c ∧
     ∀ i, i < (normalize_path p).length - 1 →
       ∃ es, lookup_leaf (update_file_content st p c none).1.head.tree
         (List.take (i + 1) (normalize_path p)) = .ok (.tree es)) ∧
    (exOk (create_file st p c none fie).2 = true ∧
     get_file_content (create_file st p c none fie).1.head.tree p = .ok c ∧
     ∀ i, i < (normalize_path p).length - 1 →
       ∃ es, lookup_leaf (create_file st p c none fie).1.head.tree
         (List.take (i + 1) (normalize_path p)) = .ok (.tree es)) := by
  have hne : normalize_path p ≠ [] := by
    intro h; rw [h] at hj; simp at hj
  obtain ⟨T, hT, hL⟩ :=
    write_roundtrip (normalize_path p) (some st.head.tree) c GITMODE_FILE hne
  have hstate : (update_file_content st p c none).1.head.tree = T := by
    simp only [update_file_content, hT, commitState]
  have hcstate : (create_file st p c none fie).1.head.tree = T := by
    simp only [create_file]
    rw [if_neg hne]
    simp only [hT, commitState]
  refine ⟨⟨?_, ?_, ?_⟩, ?_, ?_, ?_⟩
  · simp only [update_file_content, hT, commitState, exOk]
  · rw [hstate, get_file_content_eq, hL]
  · intro i hi
    rw [hstate]
    exact update_prefix_dirs (normalize_path p) (some st.head.tree) c
      GITMODE_FILE T hT i hi
  · simp only [create_file]
    rw [if_neg hne]
    simp only [hT, commitState, exOk]
  · rw [hcstate, get_file_content_eq, hL]
  · intro i hi
    rw [hcstate]
    exact update_prefix_dirs (normalize_path p) (some st.head.tree) c
      GITMODE_FILE T hT i hi

/-- witness for C3 amended: writing `a/b` where `a` is a file, through both
`update_file_content` and `create_file` (with `fail_if_exists = true`). -/
theorem C3_write_below_blob_amended_witness :
    (exOk (update_file_content (mkState treeBlobA) "a/b" "x" none).2 = true ∧
     get_file_content
       (update_file_content (mkState treeBlobA) "a/b" "x" none).1.head.tree
       "a/b" = .ok "x" ∧
     ∀ i, i < (normalize_path "a/b").length - 1 →
       ∃ es, lookup_leaf
         (update_file_content (mkState treeBlobA) "a/b" "x" none).1.head.tree
         (List.take (i + 1) (normalize_path "a/b")) = .ok (.tree es)) ∧
    (exOk (create_file (mkState treeBlobA) "a/b" "x" none true).2 = true ∧
     get_file_content
       (create_file (mkState treeBlobA) "a/b" "x" none true).1.head.tree
       "a/b" = .ok "x" ∧
     ∀ i, i < (normalize_path "a/b").length - 1 →
       ∃ es, lookup_leaf
         (create_file (mkState treeBlobA) "a/b" "x" none true).1.head.tree
         (List.take (i + 1) (normalize_path "a/b")) = .ok (.tree es)) :=
  C3_write_below_blob_amended (mkState treeBlobA) "a/b" "x" 0 GITMODE_FILE "y"
    true (by decide) rfl

/-- C9 amended: a write at `p` (no proper prefix of which names a Blob)
leaves the content and mode at any existing path `q` unchanged, provided `q`
is neither `p` itself, nor an ancestor of `p`, nor a descendant of `p`
(prefix-incomparable normalized segment lists). -/
theorem C9_frame_amended (st : RepoState) (p q c : String) (mo : Nat)
    (d : String)
    (hnoblob : ∀ i, i < (normalize_path p).length - 1 →
        blobAt st.head.tree (List.take (i + 1) (normalize_path p)) = false)
    (hq : lookup_leaf st.head.tree (normalize_path q) = .ok (.blob mo d))
    (hpq : ¬ normalize_path p <+: normalize_path q)
    (hqp : ¬ normalize_path q <+: normalize_path p) :
    lookup_leaf (update_file_content st p c none).1.head.tree
      (normalize_path q) = .ok (.blob mo d) ∧
    get_file_content (update_file_content st p c none).1.head.tree q
      = .ok d := by
  have hne : normalize_path p ≠ [] := fun h => hpq (h ▸ List.nil_prefix)
  obtain ⟨T, hT, _⟩ :=
    write_roundtrip (normalize_path p) (some st.head.tree) c GITMODE_FILE hne
  have hstate : (update_file_content st p c none).1.head.tree = T := by
    simp only [update_file_content, hT, commitState]
  have hmain := frame_update (normalize_path q) (normalize_path p)
    st.head.tree c GITMODE_FILE (.blob mo d) T hpq hqp hq hT
  refine ⟨by rw [hstate]; exact hmain, ?_⟩
  rw [hstate, get_file_content_eq, hmain]

/-- witness for C9 amended: writing `c.txt` leaves the executable file `a/b`
(content and mode) untouched. -/
theorem C9_frame_amended_witness :
    lookup_leaf
      (update_file_content (mkState treeNestedPlus) "c.txt" "w" none).1.head.tree
      (normalize_path "a/b") = .ok (.blob GITMODE_EXEC "x") ∧
    get_file_content
      (update_file_content (mkState treeNestedPlus) "c.txt" "w" none).1.head.tree
      "a/b" = .ok "x" :=
  C9_frame_amended (mkState treeNestedPlus) "c.txt" "a/b" "w" GITMODE_EXEC "x"
    (by decide) rfl (by decide) (by decide)

/-- C6 amended: for an existing source file with content `c` and mode `mo`,
`rename_file(src, dst)` succeeds, the destination resolves to the same blob
with the same mode, reading the destination returns `c`, and reading the
source fails with a NotFound-family error — provided the normalized source
and destination segment lists are prefix-incomparable (in particular
distinct; renaming a file onto itself or onto/below its own path re-creates
the source, see the counterexample).  Separately, a rename whose source is a
directory fails with IsADirectory and changes nothing. -/
theorem C6_rename_moves_file_amended :
    (∀ (st : RepoState) (src dst : String) (mo : Nat) (c : String),
      entriesWf st.head.tree = true →
      lookup_leaf st.head.tree (normalize_path src) = .ok (.blob mo c) →
      normalize_path dst ≠ [] →
      ¬ normalize_path src <+: normalize_path dst →
      ¬ normalize_path dst <+: normalize_path src →
      exOk (rename_file st src dst none true).2 = true ∧
      lookup_leaf (rename_file st src dst none true).1.head.tree
        (normalize_path dst) = .ok (.blob mo c) ∧
      get_file_content (rename_file st src dst none true).1.head.tree dst
        = .ok c ∧
      failsNotFound
        (get_file_content (rename_file st src dst none true).1.head.tree src)
        = true) ∧
    (∀ (st : RepoState) (src dst : String) (es : GitEntries),
      lookup_leaf st.head.tree (normalize_path src) = .ok (.tree es) →
      normalize_path dst ≠ [] →
      rename_file st src dst none true = (st, .error .srcIsADirectory)) := by
  constructor
  · intro st src dst mo c hwf hsrc hdne hsd hds
    have hsne : normalize_path src ≠ [] := by
      intro h; rw [h] at hsrc; simp [lookup_leaf] at hsrc
    have hs0 : src ≠ "" := fun h => hsne (by rw [h]; rfl)
    have hd0 : dst ≠ "" := fun h => hdne (by rw [h]; rfl)
    obtain ⟨sd, sl, hsplit⟩ :
        ∃ d l, splitLast (normalize_path src) = some (d, l) := by
      cases hnp : normalize_path src with
      | nil => exact absurd hnp hsne
      | cons a b => exact splitLast_cons_isSome a b
    obtain ⟨parent, hwalk, hlook⟩ :=
      lookup_leaf_to_walk st.head.tree (normalize_path src) sd sl
        (.blob mo c) hsplit hsrc
    obtain ⟨rdel, hdel⟩ := delete_ok (normalize_path src) st.head.tree mo c hsrc
    obtain ⟨T, hT, hL⟩ :=
      write_roundtrip (normalize_path dst) (some (optTree rdel)) c mo hdne
    have c1 : ¬ (src = "" ∨ dst = "") := by simp [hs0, hd0]
    have c2 : ¬ (normalize_path src = [] ∨ normalize_path dst = []) := by
      simp [hsne, hdne]
    have hren : rename_file st src dst none true =
        commitState st T
          ((none : Option String).getD
            ("Rename " ++ src ++ " -> " ++ dst)) := by
      simp only [rename_file]
      rw [if_neg c1, if_neg c2]
      simp only [hsplit, hwalk, hlook, hdel, hT]
    have htree : (rename_file st src dst none true).1.head.tree = T := by
      rw [hren]; rfl
    have hsnd : exOk (rename_file st src dst none true).2 = true := by
      rw [hren]; rfl
    have hafter :=
      after_delete_nf (normalize_path src) st.head.tree rdel hwf hdel
    have hnf := nf_update (normalize_path src) (normalize_path dst)
      (optTree rdel) c mo T hds hsd hafter hT
    refine ⟨hsnd, by rw [htree]; exact hL, by rw [htree, get_file_content_eq, hL], ?_⟩
    rw [htree, get_file_content_eq]
    cases hres : lookup_leaf T (normalize_path src) with
    | ok o => rw [hres] at hnf; exact absurd hnf (by simp [failsNotFound])
    | error e =>
        rw [hres] at hnf
        exact hnf
  · intro st src dst es hsrc hdne
    have hsne : normalize_path src ≠ [] := by
      intro h; rw [h] at hsrc; simp [lookup_leaf] at hsrc
    have hs0 : src ≠ "" := fun h => hsne (by rw [h]; rfl)
    have hd0 : dst ≠ "" := fun h => hdne (by rw [h]; rfl)
    obtain ⟨sd, sl, hsplit⟩ :
        ∃ d l, splitLast (normalize_path src) = some (d, l) := by
      cases hnp : normalize_path src with
      | nil => exact absurd hnp hsne
      | cons a b => exact splitLast_cons_isSome a b
    obtain ⟨parent, hwalk, hlook⟩ :=
      lookup_leaf_to_walk st.head.tree (normalize_path src) sd sl
        (.tree es) hsplit hsrc
    have c1 : ¬ (src = "" ∨ dst = "") := by simp [hs0, hd0]
    have c2 : ¬ (normalize_path src = [] ∨ normalize_path dst = []) := by
      simp [hsne, hdne]
    simp only [rename_file]
    rw [if_neg c1, if_neg c2]
    simp only [hsplit, hwalk, hlook]

/-- witness for C6 amended: renaming the executable `a/b` (content "x") to
`y/b.sh` preserves content and mode, and the source stops resolving; plus the
directory-source failure on source `a`. -/
theorem C6_rename_moves_file_amended_witness :
    (exOk (rename_file (mkState treeNestedPlus) "a/b" "y/b.sh" none true).2
      = true ∧
     lookup_leaf
       (rename_file (mkState treeNestedPlus) "a/b" "y/b.sh" none true).1.head.tree
       (normalize_path "y/b.sh") = .ok (.blob GITMODE_EXEC "x") ∧
     get_file_content
       (rename_file (mkState treeNestedPlus) "a/b" "y/b.sh" none true).1.head.tree
       "y/b.sh" = .ok "x" ∧
     failsNotFound
       (get_file_content
         (rename_file (mkState treeNestedPlus) "a/b" "y/b.sh" none true).1.head.tree
         "a/b") = true) ∧
    rename_file (mkState treeNested) "a" "z.txt" none true =
      (mkState treeNested, .error .srcIsADirectory) :=
  ⟨C6_rename_moves_file_amended.1 (mkState treeNestedPlus) "a/b" "y/b.sh"
      GITMODE_EXEC "x" (by decide) rfl (by decide) (by decide) (by decide),
   C6_rename_moves_file_amended.2 (mkState treeNested) "a" "z.txt"
      (.cons "b" (.blob GITMODE_FILE "x") .nil) rfl (by decide)⟩
